import Mathlib

/-! # Verification of PortHunter (`main.go`)

A shallow embedding of the PortHunter port-scan comparison tool.  The Go
source consists of a tolerant Nmap-output parser (`ParseNmapOutput`), a
set-difference engine (`DiffPorts`), a two-generation snapshot store
(`SaveScan`), a comparison reporter (`CompareScans`) and a scan-command
builder (`RunScan`).  Pure string manipulation from Go's `strings` package
is re-implemented here over `List Char` so that every definition is
executable and kernel-reducible.  File-system state is modelled as an
explicit `Store` record with a `current` and a `backup` slot; the external
`time.Parse` library call is a parameter `parseTime : String → Option Int`
(an instant in nanoseconds on success, `none` on parse failure). -/

namespace PortHunter

/-- Go's `unicode.IsSpace` restricted to the characters relevant to Latin-1
text: space, tab, newline, vertical tab, form feed, carriage return, NEL
and NBSP.  `strings.Fields` and `strings.TrimSpace` split/trim on these. -/
def goIsSpace (c : Char) : Bool :=
  c = ' ' || c = '\t' || c = '\n' || c = Char.ofNat 0x0B || c = Char.ofNat 0x0C ||
  c = '\r' || c = Char.ofNat 0x85 || c = Char.ofNat 0xA0

/-- Helper for `goSplit`: accumulates the current chunk (reversed). -/
def goSplitAux (sep : Char) : List Char → List Char → List String
  | [], acc => [String.mk acc.reverse]
  | c :: cs, acc =>
    if c = sep then String.mk acc.reverse :: goSplitAux sep cs []
    else goSplitAux sep cs (c :: acc)

/-- Go's `strings.Split(s, sep)` for a single-character separator (the tool
only splits on `"\n"`).  Always returns at least one piece; empty pieces
are preserved. -/
def goSplit (s : String) (sep : Char) : List String :=
  goSplitAux sep s.toList []

/-- Go's `strings.TrimSpace`: drop leading and trailing whitespace. -/
def goTrimSpace (s : String) : String :=
  String.mk (((s.toList.dropWhile goIsSpace).reverse.dropWhile goIsSpace).reverse)

/-- Helper for `goFields`: splits on runs of whitespace, dropping empties. -/
def goFieldsAux : List Char → List Char → List String
  | [], acc => if acc.isEmpty then [] else [String.mk acc.reverse]
  | c :: cs, acc =>
    if goIsSpace c then
      if acc.isEmpty then goFieldsAux cs []
      else String.mk acc.reverse :: goFieldsAux cs []
    else goFieldsAux cs (c :: acc)

/-- Go's `strings.Fields`: the maximal whitespace-free substrings, in order. -/
def goFields (s : String) : List String :=
  goFieldsAux s.toList []

/-- Go's `strings.Trim(s, "()")`: strip any leading and trailing `(` / `)`. -/
def goTrimParens (s : String) : String :=
  String.mk (((s.toList.dropWhile fun c => c = '(' || c = ')').reverse.dropWhile
    (fun c => c = '(' || c = ')')).reverse)

/-- Go's `strings.HasPrefix`. -/
def goStartsWith (s pre : String) : Bool :=
  pre.toList.isPrefixOf s.toList

/-- Whether `needle` occurs as a contiguous run inside `hay`. -/
def listContainsRun (needle : List Char) : List Char → Bool
  | [] => needle.isPrefixOf []
  | c :: cs => needle.isPrefixOf (c :: cs) || listContainsRun needle cs

/-- Go's `strings.Contains`. -/
def goContains (s sub : String) : Bool :=
  listContainsRun sub.toList s.toList

/-- The host → port-entry mapping of one snapshot (Go's
`map[string][]string`, modelled as an association list). -/
abbrev PortsMap := List (String × List String)

/-- First-match association-list lookup, the model of Go map indexing
(`m[ip]` combined with the `, exists` form). -/
def lookupPorts (m : PortsMap) (ip : String) : Option (List String) :=
  match m with
  | [] => none
  | (k, v) :: rest => if k = ip then some v else lookupPorts rest ip

/-- Go's `results[ip] = append(results[ip], e)`: extend the entry list of
`ip` in place, or bind `ip` to the one-element list if it was absent. -/
def addEntry (m : PortsMap) (ip e : String) : PortsMap :=
  match m with
  | [] => [(ip, [e])]
  | (k, v) :: rest =>
    if k = ip then (k, v ++ [e]) :: rest else (k, v) :: addEntry rest ip e

/-- `ScanResult` from `main.go`: capture timestamp plus host→ports map. -/
structure ScanResult where
  DateTime : String
  Ports : PortsMap
deriving DecidableEq, Repr

/-- One line of `ParseNmapOutput`'s loop body (`main.go` lines 112–135).
State is `(currentIP, results)`.  A trimmed line starting with
`"Nmap scan report for "` re-binds the current host to its last
whitespace-separated field with surrounding parentheses stripped;
otherwise a line containing `"/tcp"` while a host is set and having at
least three fields appends the entry `"port [state] (service)"` for the
current host; every other line leaves the state unchanged. -/
def parseStep (st : String × PortsMap) (rawLine : String) : String × PortsMap :=
  let line := goTrimSpace rawLine
  if goStartsWith line "Nmap scan report for " then
    let parts := goFields line
    (goTrimParens (parts.getLastD ""), st.2)
  else if goContains line "/tcp" && st.1 != "" then
    match goFields line with
    | port :: state :: service :: _ =>
      (st.1, addEntry st.2 st.1 (port ++ " [" ++ state ++ "] (" ++ service ++ ")"))
    | _ => st
  else st

/-- `ParseNmapOutput` from `main.go`: fold the per-line step over the
newline-split input, starting with no current host and empty results. -/
def ParseNmapOutput (output : String) : PortsMap :=
  ((goSplit output '\n').foldl parseStep ("", [])).2

/-- `DiffPorts` from `main.go`: both lists are loaded into Go sets
(`map[string]bool`), so duplicates collapse; `added` are the members of
`new` absent from `old`, `removed` the members of `old` absent from `new`.
Go iterates the hash sets in unspecified order; the model fixes
first-occurrence order, which the set-level claims do not depend on. -/
def DiffPorts (old new : List String) : List String × List String :=
  (new.dedup.filter (fun p => !(old.contains p)),
   old.dedup.filter (fun p => !(new.contains p)))

/-! ### Binary64 rounding model

Go's `Duration.Hours()` returns `float64(hour) + float64(nsec)/(60*60*1e9)`
and `Duration.Minutes()` the analogue with minutes, and
`formatElapsedTime` truncates these `float64` values with `int(...)`.
Each IEEE-754 binary64 operation (integer-to-float conversion, division,
addition) returns the exact real result rounded to the nearest
representable value with a 53-bit significand, ties going to the even
significand.  The following functions model that rounding exactly over
integer fractions `a / b` (every value reached from an `int64` duration
lies in the normal range, so neither subnormals nor overflow can occur),
so that the modelled `formatElapsedTime` agrees bit-for-bit with the Go
float path on the `int64` Duration domain. -/

/-- Fuel-bounded binary logarithm: for `0 < n < 2 ^ fuel` it returns the
`l` with `2 ^ l ≤ n < 2 ^ (l + 1)`. -/
def log2Fuel : Nat → Nat → Nat
  | 0, _ => 0
  | f + 1, n => if n < 2 then 0 else log2Fuel f (n / 2) + 1

/-- Binary logarithm with fuel 500, enough for every number appearing in
the rounding pipeline. -/
def natLog2b (n : Nat) : Nat := log2Fuel 500 n

/-- Decides `2 ^ g ≤ a / b` for positive integers `a`, `b` by integer
comparison. -/
def pow2leFrac (g a b : Int) : Bool :=
  if 0 ≤ g then b * 2 ^ g.toNat ≤ a else b ≤ a * 2 ^ (-g).toNat

/-- The binade of the positive fraction `a / b`: the `e` with
`2 ^ e ≤ a / b < 2 ^ (e + 1)`. -/
def fracExp2 (a b : Int) : Int :=
  let g : Int := (natLog2b a.toNat : Int) - (natLog2b b.toNat : Int)
  if pow2leFrac g a b then g else g - 1

/-- Round the fraction `a / b` (with `b > 0`) to the nearest integer,
ties to the even integer. -/
def rneInt (a b : Int) : Int :=
  let n := a.tdiv b
  let r := a - n * b
  if 2 * r < b then n
  else if b < 2 * r then n + 1
  else if n.tmod 2 = 0 then n else n + 1

/-- Round the positive fraction `a / b` to the nearest binary64 value
(53-bit significand, round to nearest, ties to even): the result `(m, c)`
denotes the dyadic rational `m / 2 ^ c`.  Nonpositive `a` maps to zero;
negative inputs are handled by `fl53Signed`. -/
def fl53 (a b : Int) : Int × Nat :=
  if a ≤ 0 then (0, 0)
  else
    let e := fracExp2 a b
    let m := if e ≤ 52 then rneInt (a * 2 ^ (52 - e).toNat) b
             else rneInt a (b * 2 ^ (e - 52).toNat)
    if 52 ≤ e then (m * 2 ^ (e - 52).toNat, 0) else (m, (52 - e).toNat)

/-- Sign-symmetric binary64 rounding of `a / b` (binary64 rounding is odd:
`RN(-x) = -RN(x)`). -/
def fl53Signed (a b : Int) : Int × Nat :=
  if a < 0 then ((- (fl53 (-a) b).1), (fl53 (-a) b).2) else fl53 a b

/-- Exact sum of two dyadic rationals `p / 2 ^ c`, as a dyadic rational
(IEEE addition is the correctly rounded exact sum, applied afterwards). -/
def addFrac (x y : Int × Nat) : Int × Nat :=
  if x.2 ≤ y.2 then (x.1 * 2 ^ (y.2 - x.2) + y.1, y.2)
  else (x.1 + y.1 * 2 ^ (x.2 - y.2), x.2)

/-- Binary64 rounding of a dyadic rational. -/
def fl53Dyadic (x : Int × Nat) : Int × Nat := fl53Signed x.1 (2 ^ x.2)

/-- Go's `int(...)` conversion of a dyadic rational: truncation toward
zero. -/
def truncDyadic (x : Int × Nat) : Int := x.1.tdiv (2 ^ x.2)

/-- The rational value of a dyadic pair, used to state the rounding
lemmas. -/
def dval (x : Int × Nat) : ℚ := (x.1 : ℚ) / 2 ^ x.2

/-- Go's `Duration.Hours()` for `d` nanoseconds:
`float64(d / Hour) + float64(d % Hour) / (60*60*1e9)`, with the
conversion of each operand, the division and the addition each correctly
rounded to binary64. -/
def durHoursF (d : Int) : Int × Nat :=
  fl53Dyadic (addFrac (fl53Signed (d.tdiv 3600000000000) 1)
    (fl53Signed (d.tmod 3600000000000) 3600000000000))

/-- Go's `Duration.Minutes()` for `d` nanoseconds, as `durHoursF`. -/
def durMinutesF (d : Int) : Int × Nat :=
  fl53Dyadic (addFrac (fl53Signed (d.tdiv 60000000000) 1)
    (fl53Signed (d.tmod 60000000000) 60000000000))

/-- `formatElapsedTime` from `main.go`, over a duration in nanoseconds
(Go's `time.Duration`, an `int64`).  `hours := int(d.Hours())` and
`minutes := int(d.Minutes()) % 60` go through binary64 arithmetic,
modelled exactly by `durHoursF` / `durMinutesF` with truncation toward
zero; Go's integer `/` and `%` are `Int.tdiv` / `Int.tmod`. -/
def formatElapsedTime (d : Int) : String :=
  let hours := truncDyadic (durHoursF d)
  let minutes := (truncDyadic (durMinutesF d)).tmod 60
  let days := hours.tdiv 24
  if days > 0 then
    toString days ++ " days, " ++ toString (hours.tmod 24) ++ " hours"
  else if hours > 0 then
    toString hours ++ " hours, " ++ toString minutes ++ " minutes"
  else
    toString minutes ++ " minutes"

/-- The on-disk snapshot store: the `scan_data/previous_scan.json` slot
(`current`) and the `scan_data/previous_previous_scan.json` slot
(`backup`); `none` means the file is absent. -/
structure Store where
  current : Option ScanResult
  backup : Option ScanResult
deriving DecidableEq, Repr

/-- The rotation step of `SaveScan` (`main.go` line 165–167): if a current
file exists, `os.Rename` moves it onto the backup slot (overwriting it),
leaving the current slot empty. -/
def rotateCurrent (st : Store) : Store :=
  if st.current.isSome then { current := none, backup := st.current } else st

/-- The write step of `SaveScan` (`main.go` line 173): the marshalled
snapshot becomes the current file. -/
def writeCurrent (scan : ScanResult) (st : Store) : Store :=
  { st with current := some scan }

/-- `SaveScan` from `main.go`: rotate the existing current snapshot into
the backup slot, then write the new snapshot as current. -/
def SaveScan (scan : ScanResult) (st : Store) : Store :=
  writeCurrent scan (rotateCurrent st)

/-- The change report assembled by `CompareScans`: the rendered elapsed
time, the per-host non-empty diffs (for hosts of the new snapshot), the
hosts of the old snapshot missing from the new one with their entries, the
`noChanges` flag, and the two aggregate counters. -/
structure CompareReport where
  elapsedStr : String
  hostChanges : List (String × List String × List String)
  missingHosts : List (String × List String)
  noChanges : Bool
  totalAdded : Nat
  totalRemoved : Nat
deriving DecidableEq, Repr

/-- `CompareScans` from `main.go` (lines 177–247), up to but excluding the
conditional `SaveScan` call: parse both timestamps (reporting which one
failed), then record every host of the new snapshot whose diff against its
old entries (empty list if the host is new) is non-empty, every host of
the old snapshot absent from the new one, the `noChanges` flag, and the
totals `totalAdded` / `totalRemoved` exactly as the two loops accumulate
them. -/
def CompareScans (parseTime : String → Option Int) (old new : ScanResult) :
    Except String CompareReport :=
  match parseTime old.DateTime with
  | none => .error "Error parsing old scan time"
  | some oldTime =>
    match parseTime new.DateTime with
    | none => .error "Error parsing new scan time"
    | some newTime =>
      let elapsed := newTime - oldTime
      let hostChanges :=
        (new.Ports.map (fun p =>
          (p.1, DiffPorts ((lookupPorts old.Ports p.1).getD []) p.2))).filter
          (fun c => !(c.2.1.isEmpty && c.2.2.isEmpty))
      let missingHosts :=
        old.Ports.filter (fun p => (lookupPorts new.Ports p.1).isNone)
      .ok { elapsedStr := formatElapsedTime elapsed,
            hostChanges := hostChanges,
            missingHosts := missingHosts,
            noChanges := hostChanges.isEmpty && missingHosts.isEmpty,
            totalAdded := (hostChanges.map (fun c => c.2.1.length)).sum,
            totalRemoved := (hostChanges.map (fun c => c.2.2.length)).sum +
              (missingHosts.map (fun p => p.2.length)).sum }

/-- The tail of `CompareScans` (`main.go` lines 244–249) with the store
made explicit: on a timestamp parse error nothing is persisted; otherwise
`SaveScan new` runs exactly when changes were detected. -/
def CompareAndSave (parseTime : String → Option Int) (old new : ScanResult)
    (st : Store) : Except String CompareReport × Store :=
  match CompareScans parseTime old new with
  | .error e => (.error e, st)
  | .ok r => (.ok r, if r.noChanges then st else SaveScan new st)

/-- The change condition of the spec: some host of the new snapshot has a
non-empty diff against its old entries, or some host of the old snapshot
is absent from the new one. -/
def scanChanged (old new : ScanResult) : Prop :=
  (∃ p ∈ new.Ports, DiffPorts ((lookupPorts old.Ports p.1).getD []) p.2 ≠ ([], [])) ∨
  (∃ p ∈ old.Ports, lookupPorts new.Ports p.1 = none)

/-- `ExecCmd`: the process actually spawned — the binary name and the full
argument vector, `argv[0]` included.  Go's `exec.Command(name, arg...)`
runs `name` with `Args = append([]string{name}, arg...)`. -/
structure ExecCmd where
  name : String
  argv : List String
deriving DecidableEq, Repr

/-- The command-construction part of `RunScan` (`main.go` lines 35–58):
trim and validate both inputs, split the command into fields, take the
second field as the executable when the first is `"sudo"`, append the
target, and build `exec.Command(executable, args[1:]...)`. -/
def RunScanCmd (command target : String) : Except String ExecCmd :=
  let command := goTrimSpace command
  let target := goTrimSpace target
  if command = "" then .error "scan command cannot be empty"
  else if target = "" then .error "target cannot be empty"
  else
    let args := goFields command
    let executable :=
      match args with
      | a0 :: a1 :: _ => if a0 = "sudo" then a1 else a0
      | _ => args.headD ""
    let args := args ++ [target]
    .ok { name := executable, argv := executable :: args.drop 1 }

/-! ## Theorems -/

/-! ### Correctness of the binary64 rounding model -/

theorem log2Fuel_correct : ∀ (f n : Nat), 0 < n → n < 2 ^ f →
    2 ^ log2Fuel f n ≤ n ∧ n < 2 ^ (log2Fuel f n + 1)
  | 0, n, hn, hf => by simp at hf; omega
  | f + 1, n, hn, hf => by
    unfold log2Fuel
    by_cases h2 : n < 2
    · simp only [h2, if_true]
      constructor
      · simpa using hn
      · simpa using h2
    · simp only [h2, if_false]
      have hhalf : n / 2 < 2 ^ f := by
        have hp : 2 ^ (f + 1) = 2 * 2 ^ f := by ring
        omega
      have hrec := log2Fuel_correct f (n / 2) (by omega) hhalf
      have hp1 : 2 ^ (log2Fuel f (n / 2) + 1) = 2 * 2 ^ log2Fuel f (n / 2) := by ring
      have hp2 : 2 ^ (log2Fuel f (n / 2) + 1 + 1) = 2 * 2 ^ (log2Fuel f (n / 2) + 1) := by ring
      constructor
      · rw [hp1]; omega
      · rw [hp2]; omega

theorem pow2leFrac_iff (g a b : Int) (ha : 0 < a) (hb : 0 < b) :
    pow2leFrac g a b = true ↔ (2 : ℚ) ^ g ≤ (a : ℚ) / (b : ℚ) := by
  have hbq : (0 : ℚ) < (b : ℚ) := by exact_mod_cast hb
  unfold pow2leFrac
  by_cases hg : 0 ≤ g
  · simp only [hg, if_true, decide_eq_true_eq]
    rw [le_div_iff₀ hbq]
    constructor
    · intro h
      have : ((b * 2 ^ g.toNat : Int) : ℚ) ≤ (a : ℚ) := by exact_mod_cast h
      calc (2:ℚ) ^ g * b = (2:ℚ) ^ g.toNat * b := by
            rw [← zpow_natCast (2:ℚ) g.toNat, Int.toNat_of_nonneg hg]
        _ = ((b * 2 ^ g.toNat : Int) : ℚ) := by push_cast; ring
        _ ≤ (a : ℚ) := this
    · intro h
      have h2 : ((b * 2 ^ g.toNat : Int) : ℚ) ≤ (a : ℚ) := by
        calc ((b * 2 ^ g.toNat : Int) : ℚ) = (2:ℚ) ^ g.toNat * b := by push_cast; ring
          _ = (2:ℚ) ^ g * b := by rw [← zpow_natCast (2:ℚ) g.toNat, Int.toNat_of_nonneg hg]
          _ ≤ (a : ℚ) := h
      exact_mod_cast h2
  · simp only [hg, if_false, decide_eq_true_eq]
    have hgneg : 0 ≤ -g := by omega
    have hkey : (2:ℚ) ^ g * ((2:ℚ) ^ (-g).toNat) = 1 := by
      rw [← zpow_natCast (2:ℚ) (-g).toNat, Int.toNat_of_nonneg hgneg, ← zpow_add₀ (two_ne_zero)]
      simp
    have hpos : (0:ℚ) < (2:ℚ) ^ (-g).toNat := by positivity
    rw [le_div_iff₀ hbq]
    constructor
    · intro h
      have h2 : (b : ℚ) ≤ (a : ℚ) * 2 ^ (-g).toNat := by
        have := mul_le_mul_of_nonneg_right (by exact_mod_cast h : (b:ℚ) ≤ (a:ℚ) * 2 ^ (-g).toNat) (le_refl (1:ℚ))
        exact_mod_cast h
      nlinarith [h2, hkey, hpos]
    · intro h
      have h2 : (b : ℚ) ≤ (a : ℚ) * 2 ^ (-g).toNat := by nlinarith [hkey, hpos]
      exact_mod_cast h2

theorem fracExp2_correct (a b : Int) (ha : 0 < a) (hb : 0 < b)
    (ha5 : a < 2 ^ 500) (hb5 : b < 2 ^ 500) :
    (2 : ℚ) ^ (fracExp2 a b) ≤ (a : ℚ) / (b : ℚ) ∧
    (a : ℚ) / (b : ℚ) < (2 : ℚ) ^ (fracExp2 a b + 1) := by
  have haN : 0 < a.toNat := by omega
  have haN5 : a.toNat < 2 ^ 500 := by omega
  have hbN : 0 < b.toNat := by omega
  have hbN5 : b.toNat < 2 ^ 500 := by omega
  obtain ⟨hla1, hla2⟩ := log2Fuel_correct 500 a.toNat haN haN5
  obtain ⟨hlb1, hlb2⟩ := log2Fuel_correct 500 b.toNat hbN hbN5
  set la := natLog2b a.toNat with hladef
  set lb := natLog2b b.toNat with hlbdef
  have haq : (a : ℚ) = (a.toNat : ℚ) := by
    have hc : ((a.toNat : ℤ) : ℚ) = (a.toNat : ℚ) := by push_cast; ring
    rw [← hc, Int.toNat_of_nonneg ha.le]
  have hbq : (b : ℚ) = (b.toNat : ℚ) := by
    have hc : ((b.toNat : ℤ) : ℚ) = (b.toNat : ℚ) := by push_cast; ring
    rw [← hc, Int.toNat_of_nonneg hb.le]
  have hbqpos : (0 : ℚ) < (b : ℚ) := by exact_mod_cast hb
  have haq1 : ((2 : ℚ) ^ (la : ℕ)) ≤ (a : ℚ) := by
    rw [haq]; exact_mod_cast hla1
  have haq2 : (a : ℚ) < (2 : ℚ) ^ (la + 1 : ℕ) := by
    rw [haq]; exact_mod_cast hla2
  have hbq1 : ((2 : ℚ) ^ (lb : ℕ)) ≤ (b : ℚ) := by
    rw [hbq]; exact_mod_cast hlb1
  have hbq2 : (b : ℚ) < (2 : ℚ) ^ (lb + 1 : ℕ) := by
    rw [hbq]; exact_mod_cast hlb2
  set g : ℤ := (la : ℤ) - (lb : ℤ) with hgdef
  -- upper bound: a / b < 2 ^ (g + 1)
  have hupper : (a : ℚ) / (b : ℚ) < (2 : ℚ) ^ (g + 1) := by
    have h1 : (a : ℚ) / (b : ℚ) < (2 : ℚ) ^ (la + 1 : ℕ) / (2 : ℚ) ^ (lb : ℕ) :=
      div_lt_div₀ haq2 hbq1 (by positivity) (by positivity)
    calc (a : ℚ) / (b : ℚ) < (2 : ℚ) ^ (la + 1 : ℕ) / (2 : ℚ) ^ (lb : ℕ) := h1
      _ = (2 : ℚ) ^ (((la : ℤ) + 1)) / (2 : ℚ) ^ ((lb : ℤ)) := by
          rw [← zpow_natCast (2:ℚ) (la + 1), ← zpow_natCast (2:ℚ) lb]; push_cast; ring_nf
      _ = (2 : ℚ) ^ (g + 1) := by
          rw [← zpow_sub₀ (two_ne_zero)]; congr 1; omega
  -- lower bound: 2 ^ (g - 1) < a / b
  have haqpos : (0 : ℚ) < (a : ℚ) := by exact_mod_cast ha
  have hlower : (2 : ℚ) ^ (g - 1) < (a : ℚ) / (b : ℚ) := by
    have h1a : (2:ℚ) ^ (la : ℕ) / (2:ℚ) ^ (lb + 1 : ℕ) ≤ (a:ℚ) / (2:ℚ) ^ (lb + 1 : ℕ) :=
      (div_le_div_iff_of_pos_right (by positivity)).mpr haq1
    have h1b : (a:ℚ) / (2:ℚ) ^ (lb + 1 : ℕ) < (a:ℚ) / (b:ℚ) :=
      div_lt_div_of_pos_left haqpos hbqpos hbq2
    calc (2 : ℚ) ^ (g - 1) = (2 : ℚ) ^ ((la : ℤ)) / (2 : ℚ) ^ ((lb : ℤ) + 1) := by
          rw [← zpow_sub₀ (two_ne_zero)]; congr 1; omega
      _ = (2:ℚ) ^ (la : ℕ) / (2:ℚ) ^ (lb + 1 : ℕ) := by
          rw [← zpow_natCast (2:ℚ) la, ← zpow_natCast (2:ℚ) (lb + 1)]; push_cast; ring_nf
      _ ≤ (a:ℚ) / (2:ℚ) ^ (lb + 1 : ℕ) := h1a
      _ < (a:ℚ) / (b:ℚ) := h1b
  -- decision split
  unfold fracExp2
  rw [← hladef, ← hlbdef, ← hgdef]
  by_cases hdec : pow2leFrac g a b = true
  · rw [if_pos hdec]
    exact ⟨(pow2leFrac_iff g a b ha hb).mp hdec, hupper⟩
  · rw [if_neg hdec]
    constructor
    · exact le_of_lt (by simpa using hlower)
    · have : ¬ ((2 : ℚ) ^ g ≤ (a : ℚ) / (b : ℚ)) := fun hc => hdec ((pow2leFrac_iff g a b ha hb).mpr hc)
      have h2 : (a : ℚ) / (b : ℚ) < (2 : ℚ) ^ g := lt_of_not_le this
      simpa using h2

theorem zpow2_le_zpow2 {m n : ℤ} (h : m ≤ n) : (2:ℚ) ^ m ≤ (2:ℚ) ^ n :=
  (zpow_le_zpow_iff_right₀ (by norm_num : (1:ℚ) < 2)).mpr h

theorem zpow2_lt_of_lt {m n : ℤ} (h : (2:ℚ) ^ m < (2:ℚ) ^ n) : m < n :=
  (zpow_lt_zpow_iff_right₀ (by norm_num : (1:ℚ) < 2)).mp h

theorem rneInt_spec (a b : Int) (ha : 0 ≤ a) (hb : 0 < b) :
    0 ≤ rneInt a b ∧ |(rneInt a b : ℚ) - (a : ℚ) / b| ≤ 1 / 2 := by
  simp only [rneInt]
  have htd : a.tdiv b = a / b := Int.tdiv_eq_ediv ha hb.le
  have hn0 : 0 ≤ a / b := Int.ediv_nonneg ha hb.le
  have hr0 : 0 ≤ a % b := Int.emod_nonneg a hb.ne.symm
  have hrb : a % b < b := Int.emod_lt_of_pos a hb
  have hreq : a - a.tdiv b * b = a % b := by
    rw [htd, Int.emod_def a b]; ring
  have hbq : (0 : ℚ) < (b : ℚ) := by exact_mod_cast hb
  have hval : (a : ℚ) / (b : ℚ) = ((a / b : ℤ) : ℚ) + ((a % b : ℤ) : ℚ) / (b : ℚ) := by
    rw [Int.emod_def a b]
    push_cast
    field_simp
    ring
  rw [hreq, hval, htd]
  set n : ℤ := a / b with hndef
  set r : ℤ := a % b with hrdef
  have hrq0 : (0 : ℚ) ≤ (r : ℚ) := by exact_mod_cast hr0
  have hrqb : (r : ℚ) < (b : ℚ) := by exact_mod_cast hrb
  have hdivnn : (0 : ℚ) ≤ (r : ℚ) / (b : ℚ) := div_nonneg hrq0 hbq.le
  by_cases h1 : 2 * r < b
  · rw [if_pos h1]
    have h1q : (r : ℚ) / (b : ℚ) < 1 / 2 := by
      rw [div_lt_div_iff₀ hbq (by norm_num)]
      have : (2 * r : ℚ) < (b : ℚ) := by exact_mod_cast h1
      linarith
    refine ⟨hn0, ?_⟩
    rw [abs_le]
    exact ⟨by linarith, by linarith⟩
  · rw [if_neg h1]
    have h1q : 1 / 2 ≤ (r : ℚ) / (b : ℚ) := by
      rw [div_le_div_iff₀ (by norm_num) hbq]
      have : (b : ℚ) ≤ (2 * r : ℚ) := by exact_mod_cast (by omega : b ≤ 2 * r)
      linarith
    have hlt1 : (r : ℚ) / (b : ℚ) < 1 := by
      rw [div_lt_one hbq]; exact hrqb
    by_cases h2 : b < 2 * r
    · rw [if_pos h2]
      refine ⟨by omega, ?_⟩
      rw [abs_le]
      push_cast
      constructor
      · linarith
      · linarith
    · rw [if_neg h2]
      have hmid : (r : ℚ) / (b : ℚ) = 1 / 2 := by
        have hbe : b = 2 * r := by omega
        rw [hbe]; push_cast
        rw [div_eq_iff (by exact_mod_cast (by omega : (2 * r : ℤ) ≠ 0))]
        ring
      by_cases h3 : n.tmod 2 = 0
      · rw [if_pos h3]
        refine ⟨hn0, ?_⟩
        rw [abs_le]
        constructor
        · linarith
        · linarith
      · rw [if_neg h3]
        refine ⟨by omega, ?_⟩
        rw [abs_le]
        push_cast
        constructor
        · linarith
        · linarith

theorem rneInt_exact (a b : Int) (ha : 0 ≤ a) (hb : 0 < b) (hd : b ∣ a) :
    (rneInt a b : ℚ) = (a : ℚ) / b := by
  simp only [rneInt]
  obtain ⟨c, hc⟩ := hd
  have htd : a.tdiv b = c := by
    rw [hc, mul_comm, Int.mul_tdiv_cancel _ hb.ne.symm]
  have hr : a - a.tdiv b * b = 0 := by rw [htd, hc]; ring
  rw [hr]
  rw [if_pos (by omega)]
  rw [htd, hc]
  have hbq : (b : ℚ) ≠ 0 := by exact_mod_cast hb.ne.symm
  push_cast
  field_simp

theorem fl53_eq_of_exp_le (a b : Int) (ha : 0 < a) (he : fracExp2 a b ≤ 52) :
    fl53 a b = (rneInt (a * 2 ^ (52 - fracExp2 a b).toNat) b, (52 - fracExp2 a b).toNat) := by
  simp only [fl53]
  rw [if_neg (by omega), if_pos he]
  by_cases h52 : 52 ≤ fracExp2 a b
  · have he52 : fracExp2 a b = 52 := le_antisymm he h52
    rw [if_pos h52, he52]
    norm_num
  · rw [if_neg h52]

theorem fl53_spec (a b : Int) (ha : 0 < a) (hb : 0 < b)
    (ha5 : a < 2 ^ 500) (hb5 : b < 2 ^ 500) (he : fracExp2 a b ≤ 52) :
    2 ^ 52 ≤ (fl53 a b).1 ∧ (fl53 a b).1 ≤ 2 ^ 53 ∧
    (fl53 a b).2 = (52 - fracExp2 a b).toNat ∧
    |dval (fl53 a b) - (a : ℚ) / b| ≤ (2 : ℚ) ^ (fracExp2 a b - 53) := by
  obtain ⟨hexp1, hexp2⟩ := fracExp2_correct a b ha hb ha5 hb5
  set e : ℤ := fracExp2 a b with hedef
  set k : ℕ := (52 - e).toNat with hkdef
  have hkz : (k : ℤ) = 52 - e := Int.toNat_of_nonneg (by omega)
  have hstr := fl53_eq_of_exp_le a b ha he
  have hbq : (0 : ℚ) < (b : ℚ) := by exact_mod_cast hb
  have hPq : (0 : ℚ) < (2 : ℚ) ^ k := by positivity
  have hkq : ((2 : ℚ) ^ k) = (2 : ℚ) ^ ((52 : ℤ) - e) := by
    rw [← zpow_natCast (2 : ℚ) k, hkz]
  have hak : ((a * 2 ^ k : ℤ) : ℚ) = (a : ℚ) * 2 ^ k := by push_cast; ring
  have hscaled : ((a * 2 ^ k : ℤ) : ℚ) / (b : ℚ) = ((a : ℚ) / b) * 2 ^ k := by
    rw [hak]; ring
  obtain ⟨hm0, hmerr⟩ := rneInt_spec (a * 2 ^ k) b (by positivity) hb
  set m : ℤ := rneInt (a * 2 ^ k) b with hmdef
  -- scaled value bounds
  have hsc1 : (2 : ℚ) ^ (52 : ℤ) ≤ ((a : ℚ) / b) * 2 ^ k := by
    calc (2 : ℚ) ^ (52 : ℤ) = (2 : ℚ) ^ e * (2 : ℚ) ^ ((52 : ℤ) - e) := by
          rw [← zpow_add₀ (two_ne_zero : (2:ℚ) ≠ 0)]; congr 1; ring
      _ ≤ ((a : ℚ) / b) * (2 : ℚ) ^ ((52 : ℤ) - e) := by
          apply mul_le_mul_of_nonneg_right hexp1 (by positivity)
      _ = ((a : ℚ) / b) * 2 ^ k := by rw [hkq]
  have hsc2 : ((a : ℚ) / b) * 2 ^ k < (2 : ℚ) ^ (53 : ℤ) := by
    calc ((a : ℚ) / b) * 2 ^ k = ((a : ℚ) / b) * (2 : ℚ) ^ ((52 : ℤ) - e) := by rw [hkq]
      _ < (2 : ℚ) ^ (e + 1) * (2 : ℚ) ^ ((52 : ℤ) - e) := by
          apply mul_lt_mul_of_pos_right hexp2 (by positivity)
      _ = (2 : ℚ) ^ (53 : ℤ) := by
          rw [← zpow_add₀ (two_ne_zero : (2:ℚ) ≠ 0)]; congr 1; ring
  have hmq := hmerr
  rw [hscaled] at hmq
  rw [abs_le] at hmq
  have hm52 : 2 ^ 52 ≤ m := by
    have h1 : ((2 ^ 52 - 1 : ℤ) : ℚ) < (m : ℚ) := by
      have h2 : ((2 : ℚ) ^ (52 : ℤ)) = ((2 ^ 52 : ℤ) : ℚ) := by push_cast; norm_num
      push_cast
      nlinarith [hmq.1, hsc1, h2]
    have h4 : (2 ^ 52 - 1 : ℤ) < m := by exact_mod_cast h1
    omega
  have hm53 : m ≤ 2 ^ 53 := by
    have h1 : (m : ℚ) < ((2 ^ 53 : ℤ) : ℚ) + 1 / 2 := by
      have h2 : ((2 : ℚ) ^ (53 : ℤ)) = ((2 ^ 53 : ℤ) : ℚ) := by push_cast; norm_num
      nlinarith [hmq.2, hsc2, h2]
    have h2 : (m : ℚ) < ((2 ^ 53 + 1 : ℤ) : ℚ) := by push_cast at h1 ⊢; linarith
    have h3 : (m : ℤ) < 2 ^ 53 + 1 := by exact_mod_cast h2
    omega
  refine ⟨by rw [hstr]; exact hm52, by rw [hstr]; exact hm53, by rw [hstr], ?_⟩
  rw [hstr]
  show |(m : ℚ) / 2 ^ k - (a : ℚ) / b| ≤ (2 : ℚ) ^ (e - 53)
  have hdiff : (m : ℚ) / 2 ^ k - (a : ℚ) / b = ((m : ℚ) - ((a : ℚ) / b) * 2 ^ k) / 2 ^ k := by
    field_simp
    ring
  rw [hdiff, abs_div, abs_of_pos hPq, div_le_iff₀ hPq]
  calc |(m : ℚ) - ((a : ℚ) / b) * 2 ^ k| ≤ 1 / 2 := by
        have := hmerr; rw [hscaled] at this; exact this
    _ = (2 : ℚ) ^ (e - 53) * (2 : ℚ) ^ ((52 : ℤ) - e) := by
        rw [← zpow_add₀ (two_ne_zero : (2:ℚ) ≠ 0)]
        norm_num
    _ = (2 : ℚ) ^ (e - 53) * 2 ^ k := by rw [hkq]

theorem fl53_exact (a b : Int) (ha : 0 < a) (hb : 0 < b) (he : fracExp2 a b ≤ 52)
    (hdvd : b ∣ a * 2 ^ (52 - fracExp2 a b).toNat) :
    dval (fl53 a b) = (a : ℚ) / b := by
  rw [fl53_eq_of_exp_le a b ha he]
  show (rneInt (a * 2 ^ (52 - fracExp2 a b).toNat) b : ℚ) / 2 ^ (52 - fracExp2 a b).toNat =
    (a : ℚ) / b
  rw [rneInt_exact _ b (by positivity) hb hdvd]
  have hbq : (b : ℚ) ≠ 0 := by positivity
  push_cast
  rw [div_div]
  rw [div_eq_div_iff (by positivity) (by positivity)]
  ring

theorem fl53Signed_of_nonneg (a b : Int) (ha : 0 ≤ a) : fl53Signed a b = fl53 a b := by
  simp [fl53Signed, not_lt.mpr ha]

theorem fl53_of_nonpos (a b : Int) (ha : a ≤ 0) : fl53 a b = (0, 0) := by
  simp [fl53, ha]

theorem addFrac_val (x y : Int × Nat) : dval (addFrac x y) = dval x + dval y := by
  rcases x with ⟨p1, k1⟩
  rcases y with ⟨p2, k2⟩
  simp only [addFrac, dval]
  split
  · rename_i h
    have h2 : (2:ℚ) ^ k1 * 2 ^ (k2 - k1) = 2 ^ k2 := by
      rw [← pow_add]; congr 1; omega
    push_cast
    rw [div_add_div _ _ (by positivity) (by positivity), div_eq_div_iff (by positivity) (by positivity)]
    linear_combination ((p1 : ℚ) * (2:ℚ) ^ k2) * h2
  · rename_i h
    have h2 : (2:ℚ) ^ k2 * 2 ^ (k1 - k2) = 2 ^ k1 := by
      rw [← pow_add]; congr 1; omega
    push_cast
    rw [div_add_div _ _ (by positivity) (by positivity), div_eq_div_iff (by positivity) (by positivity)]
    linear_combination ((p2 : ℚ) * (2:ℚ) ^ k1) * h2

theorem addFrac_snd (x y : Int × Nat) : (addFrac x y).2 = max x.2 y.2 := by
  rcases x with ⟨p1, k1⟩
  rcases y with ⟨p2, k2⟩
  simp only [addFrac]
  split <;> simp <;> omega

theorem truncDyadic_eq (p : Int) (k : Nat) (n : Int) (hn : 0 ≤ n)
    (h1 : (n : ℚ) ≤ dval (p, k)) (h2 : dval (p, k) < (n : ℚ) + 1) :
    truncDyadic (p, k) = n := by
  have hPq : (0:ℚ) < (2:ℚ) ^ k := by positivity
  have hPz : (0:ℤ) < 2 ^ k := by positivity
  simp only [dval] at h1 h2
  rw [le_div_iff₀ hPq] at h1
  rw [div_lt_iff₀ hPq] at h2
  have hz1 : n * 2 ^ k ≤ p := by
    have : ((n * 2 ^ k : ℤ) : ℚ) ≤ ((p : ℤ) : ℚ) := by push_cast; linarith
    exact_mod_cast this
  have hz2 : p < (n + 1) * 2 ^ k := by
    have : ((p : ℤ) : ℚ) < ((n + 1) * 2 ^ k : ℤ) := by push_cast; linarith
    exact_mod_cast this
  have hp0 : 0 ≤ p := le_trans (by positivity) hz1
  unfold truncDyadic
  rw [Int.tdiv_eq_ediv hp0 (by positivity)]
  have hlow : n ≤ p / 2 ^ k := Int.le_ediv_iff_mul_le hPz |>.mpr hz1
  have hhigh : p / 2 ^ k < n + 1 := Int.ediv_lt_iff_lt_mul hPz |>.mpr hz2
  exact le_antisymm (Int.lt_add_one_iff.mp hhigh) hlow

theorem fl53Dyadic_exact_int (x : Int × Nat) (n : ℤ) (hn : 0 < n) (hn53 : n < 2 ^ 53)
    (hx2 : x.2 ≤ 400) (hval : dval x = (n : ℚ)) :
    dval (fl53Dyadic x) = (n : ℚ) := by
  have hPq : (0:ℚ) < (2:ℚ) ^ x.2 := by positivity
  have hx1 : x.1 = n * 2 ^ x.2 := by
    have h1 : (x.1 : ℚ) = (n : ℚ) * 2 ^ x.2 := by
      have := hval
      simp only [dval] at this
      field_simp at this
      linarith
    exact_mod_cast h1
  have hx1pos : 0 < x.1 := by
    rw [hx1]; positivity
  have hb5 : (2 : ℤ) ^ x.2 < 2 ^ 500 := by
    calc (2:ℤ) ^ x.2 ≤ 2 ^ 400 := by exact pow_le_pow_right₀ (by norm_num) hx2
      _ < 2 ^ 500 := by norm_num
  have ha5 : x.1 < 2 ^ 500 := by
    rw [hx1]
    calc n * 2 ^ x.2 < 2 ^ 53 * 2 ^ x.2 := by
          apply mul_lt_mul_of_pos_right hn53 (by positivity)
      _ ≤ 2 ^ 53 * 2 ^ 400 := by
          apply mul_le_mul_of_nonneg_left (pow_le_pow_right₀ (by norm_num) hx2) (by positivity)
      _ < 2 ^ 500 := by norm_num
  have hbz : (0:ℤ) < 2 ^ x.2 := by positivity
  obtain ⟨he1, he2⟩ := fracExp2_correct x.1 (2 ^ x.2) hx1pos hbz ha5 hb5
  have hvq : (x.1 : ℚ) / ((2 ^ x.2 : ℤ) : ℚ) = (n : ℚ) := by
    push_cast
    simp only [dval] at hval
    push_cast at hval
    exact hval
  have he52 : fracExp2 x.1 (2 ^ x.2) ≤ 52 := by
    have hlt : (2:ℚ) ^ (fracExp2 x.1 (2 ^ x.2)) < (2:ℚ) ^ (53 : ℤ) := by
      calc (2:ℚ) ^ (fracExp2 x.1 (2 ^ x.2)) ≤ (x.1 : ℚ) / ((2 ^ x.2 : ℤ) : ℚ) := he1
        _ = (n : ℚ) := hvq
        _ < (2:ℚ) ^ (53 : ℤ) := by
            have : ((2 ^ 53 : ℤ) : ℚ) = (2:ℚ) ^ (53 : ℤ) := by push_cast; norm_num
            rw [← this]; exact_mod_cast hn53
    have := zpow2_lt_of_lt hlt
    omega
  have hdvd : (2:ℤ) ^ x.2 ∣ x.1 * 2 ^ (52 - fracExp2 x.1 (2 ^ x.2)).toNat := by
    apply dvd_mul_of_dvd_left
    rw [hx1]
    exact dvd_mul_left _ _
  show dval (fl53Signed x.1 (2 ^ x.2)) = (n : ℚ)
  rw [fl53Signed_of_nonneg _ _ hx1pos.le]
  rw [fl53_exact x.1 (2 ^ x.2) hx1pos hbz he52 hdvd]
  exact hvq

theorem fl53Signed_int_spec (h : ℤ) (h0 : 0 ≤ h) (h53 : h < 2 ^ 53) :
    dval (fl53Signed h 1) = (h : ℚ) ∧ (fl53Signed h 1).2 ≤ 52 ∧
    0 ≤ (fl53Signed h 1).1 ∧ (fl53Signed h 1).1 ≤ 2 ^ 53 := by
  rw [fl53Signed_of_nonneg _ _ h0]
  rcases eq_or_lt_of_le h0 with h0' | h0'
  · rw [← h0', fl53_of_nonpos 0 1 (le_refl 0)]
    norm_num [dval]
  · have ha5 : h < 2 ^ 500 := lt_trans h53 (by norm_num)
    have hb5 : (1:ℤ) < 2 ^ 500 := by norm_num
    obtain ⟨he1, he2⟩ := fracExp2_correct h 1 h0' one_pos ha5 hb5
    rw [Int.cast_one, div_one] at he1 he2
    have he52 : fracExp2 h 1 ≤ 52 := by
      have hlt : (2:ℚ) ^ (fracExp2 h 1) < (2:ℚ) ^ (53 : ℤ) := by
        calc (2:ℚ) ^ (fracExp2 h 1) ≤ (h : ℚ) := he1
          _ < (2:ℚ) ^ (53 : ℤ) := by
              have hc : ((2 ^ 53 : ℤ) : ℚ) = (2:ℚ) ^ (53 : ℤ) := by push_cast; norm_num
              rw [← hc]; exact_mod_cast h53
      have := zpow2_lt_of_lt hlt
      omega
    have he0 : 0 ≤ fracExp2 h 1 := by
      have hge : (2:ℚ) ^ ((0:ℤ)) < (2:ℚ) ^ (fracExp2 h 1 + 1) := by
        calc (2:ℚ) ^ ((0:ℤ)) = 1 := by norm_num
          _ ≤ (h : ℚ) := by exact_mod_cast h0'
          _ < (2:ℚ) ^ (fracExp2 h 1 + 1) := he2
      have := zpow2_lt_of_lt hge
      omega
    obtain ⟨hm1, hm2, hsh, herr⟩ := fl53_spec h 1 h0' one_pos ha5 hb5 he52
    have hex : dval (fl53 h 1) = (h : ℚ) := by
      rw [fl53_exact h 1 h0' one_pos he52 (one_dvd _)]
      norm_num
    refine ⟨hex, ?_, by omega, hm2⟩
    rw [hsh]
    omega

theorem fl53_frac_spec (k cnt : ℕ) (hk1 : 1 ≤ k) (hkc : k < cnt) (hc : cnt ≤ 3600) :
    (1 / 3600 - (2:ℚ) ^ (-54 : ℤ) ≤
        dval (fl53 ((k : ℤ) * 1000000000) ((cnt : ℤ) * 1000000000)) ∧
      dval (fl53 ((k : ℤ) * 1000000000) ((cnt : ℤ) * 1000000000)) ≤
        1 - 1 / 3600 + (2:ℚ) ^ (-54 : ℤ)) ∧
    (fl53 ((k : ℤ) * 1000000000) ((cnt : ℤ) * 1000000000)).2 ≤ 64 ∧
    2 ^ 52 ≤ (fl53 ((k : ℤ) * 1000000000) ((cnt : ℤ) * 1000000000)).1 ∧
    (fl53 ((k : ℤ) * 1000000000) ((cnt : ℤ) * 1000000000)).1 ≤ 2 ^ 53 := by
  set a : ℤ := (k : ℤ) * 1000000000 with hadef
  set b : ℤ := (cnt : ℤ) * 1000000000 with hbdef
  have ha : 0 < a := by omega
  have hb : 0 < b := by omega
  have ha5 : a < 2 ^ 500 := by
    have h1 : a ≤ 3600 * 1000000000 := by omega
    exact lt_of_le_of_lt h1 (by norm_num)
  have hb5 : b < 2 ^ 500 := by
    have h1 : b ≤ 3600 * 1000000000 := by omega
    exact lt_of_le_of_lt h1 (by norm_num)
  have hcq : (0:ℚ) < (cnt : ℚ) := by exact_mod_cast (by omega : 0 < cnt)
  have hfrac : (a : ℚ) / (b : ℚ) = (k : ℚ) / (cnt : ℚ) := by
    rw [hadef, hbdef]
    push_cast
    rw [div_eq_div_iff (by positivity) hcq.ne']
    ring
  have hfrac_lt1 : (k : ℚ) / (cnt : ℚ) < 1 := by
    rw [div_lt_one hcq]
    exact_mod_cast hkc
  have hfrac_lo : 1 / 3600 ≤ (k : ℚ) / (cnt : ℚ) := by
    rw [div_le_div_iff₀ (by norm_num) hcq]
    have h1 : (1:ℚ) ≤ (k:ℚ) := by exact_mod_cast hk1
    have h2 : (cnt:ℚ) ≤ 3600 := by exact_mod_cast hc
    have h3 : 3600 * (1:ℚ) ≤ 3600 * (k:ℚ) :=
      mul_le_mul_of_nonneg_left h1 (by norm_num)
    linarith
  obtain ⟨he1, he2⟩ := fracExp2_correct a b ha hb ha5 hb5
  rw [hfrac] at he1 he2
  set e : ℤ := fracExp2 a b with hedef
  have he_neg : e ≤ -1 := by
    have hlt : (2:ℚ) ^ e < (2:ℚ) ^ (0:ℤ) := by
      calc (2:ℚ) ^ e ≤ (k : ℚ) / (cnt : ℚ) := he1
        _ < 1 := hfrac_lt1
        _ = (2:ℚ) ^ (0:ℤ) := by norm_num
    have := zpow2_lt_of_lt hlt
    omega
  have he_ge : -12 ≤ e := by
    have hlt : (2:ℚ) ^ (-12:ℤ) < (2:ℚ) ^ (e + 1) := by
      calc (2:ℚ) ^ (-12:ℤ) < 1 / 3600 := by norm_num
        _ ≤ (k : ℚ) / (cnt : ℚ) := hfrac_lo
        _ < (2:ℚ) ^ (e + 1) := he2
    have := zpow2_lt_of_lt hlt
    omega
  have hfrac_hi : (k : ℚ) / (cnt : ℚ) ≤ 1 - 1 / 3600 := by
    have hk2 : (k:ℚ) ≤ (cnt:ℚ) - 1 := by
      have : ((k:ℤ):ℚ) ≤ ((cnt:ℤ):ℚ) - 1 := by
        have hz : (k:ℤ) ≤ (cnt:ℤ) - 1 := by omega
        push_cast
        exact_mod_cast hz
      push_cast at this
      exact this
    have h1cnt : 1 / 3600 ≤ 1 / (cnt:ℚ) :=
      one_div_le_one_div_of_le hcq (by exact_mod_cast hc)
    have hstep : (k:ℚ)/cnt ≤ ((cnt:ℚ) - 1)/cnt :=
      (div_le_div_iff_of_pos_right hcq).mpr hk2
    have hid : ((cnt:ℚ) - 1)/cnt = 1 - 1/cnt := by
      field_simp
    calc (k:ℚ)/cnt ≤ ((cnt:ℚ) - 1)/cnt := hstep
      _ = 1 - 1/(cnt:ℚ) := hid
      _ ≤ 1 - 1/3600 := by linarith
  obtain ⟨hm1, hm2, hsh, herr⟩ := fl53_spec a b ha hb ha5 hb5 (by omega)
  rw [hfrac] at herr
  have herr2 : |dval (fl53 a b) - (k : ℚ) / cnt| ≤ (2:ℚ) ^ (-54 : ℤ) :=
    le_trans herr (zpow2_le_zpow2 (by omega))
  rw [abs_le] at herr2
  refine ⟨⟨by linarith [herr2.1], by linarith [herr2.2]⟩, ?_, hm1, hm2⟩
  rw [hsh]
  omega

theorem truncUnit (hour k cnt : ℕ) (hcnt2 : 2 ≤ cnt) (hcnt : cnt ≤ 3600)
    (hk : k < cnt) (hhour : hour < 2 ^ 40) :
    truncDyadic (fl53Dyadic (addFrac (fl53Signed (hour : ℤ) 1)
      (fl53Signed ((k : ℤ) * 1000000000) ((cnt : ℤ) * 1000000000)))) = (hour : ℤ) := by
  have hh53 : (hour : ℤ) < 2 ^ 53 := by
    have h1 : (hour : ℤ) < 2 ^ 40 := by exact_mod_cast hhour
    exact lt_trans h1 (by norm_num)
  obtain ⟨hhv, hhk, hhn0, hhn53⟩ := fl53Signed_int_spec (hour : ℤ) (by positivity) hh53
  by_cases hk0 : k = 0
  · subst hk0
    rw [show ((0:ℕ):ℤ) * 1000000000 = 0 from by norm_num]
    rw [fl53Signed_of_nonneg 0 _ (le_refl 0), fl53_of_nonpos 0 _ (le_refl 0)]
    by_cases hh0 : hour = 0
    · subst hh0
      rfl
    · have hhpos : (0:ℤ) < (hour : ℤ) := by exact_mod_cast Nat.pos_of_ne_zero hh0
      have hsumval : dval (addFrac (fl53Signed (hour:ℤ) 1) (0, 0)) = ((hour:ℤ) : ℚ) := by
        rw [addFrac_val, hhv]
        simp [dval]
      have hsum2 : (addFrac (fl53Signed (hour:ℤ) 1) (0, 0)).2 ≤ 400 := by
        rw [addFrac_snd]
        simp
        omega
      have hex := fl53Dyadic_exact_int _ (hour:ℤ) hhpos hh53 hsum2 hsumval
      rcases hFd : fl53Dyadic (addFrac (fl53Signed (hour:ℤ) 1) (0, 0)) with ⟨P, K⟩
      have hex2 : dval (P, K) = ((hour:ℤ):ℚ) := by rw [← hFd]; exact hex
      exact truncDyadic_eq P K (hour:ℤ) (Int.natCast_nonneg hour) (le_of_eq hex2.symm)
        (by rw [hex2]; linarith)
  · have hk1 : 1 ≤ k := by omega
    obtain ⟨⟨hq_lo, hq_hi⟩, hqk, hqm1, hqm2⟩ := fl53_frac_spec k cnt hk1 hk hcnt
    rw [show fl53Signed ((k : ℤ) * 1000000000) ((cnt : ℤ) * 1000000000) =
        fl53 ((k : ℤ) * 1000000000) ((cnt : ℤ) * 1000000000) from
      fl53Signed_of_nonneg _ _ (by positivity)]
    set qP := fl53 ((k : ℤ) * 1000000000) ((cnt : ℤ) * 1000000000) with hqPdef
    set hP := fl53Signed (hour : ℤ) 1 with hPdef
    set S := addFrac hP qP with hSdef
    have hA : (0:ℚ) < (2:ℚ) ^ (-54:ℤ) := by positivity
    have hB : (0:ℚ) < (2:ℚ) ^ (-13:ℤ) := by positivity
    have hnum1 : (2:ℚ) ^ (-54:ℤ) + (2:ℚ) ^ (-13:ℤ) < 1 / 3600 := by norm_num
    have hSval : dval S = ((hour:ℤ):ℚ) + dval qP := by
      rw [hSdef, addFrac_val, hhv]
    have hSk : S.2 ≤ 64 := by
      rw [hSdef, addFrac_snd]
      omega
    have hq_pos : (0:ℚ) < dval qP := by
      have : (0:ℚ) < 1/3600 - (2:ℚ)^(-54:ℤ) := by norm_num
      linarith
    have hhq0 : (0:ℚ) ≤ ((hour:ℤ):ℚ) := by positivity
    have hSpos : (0:ℚ) < dval S := by rw [hSval]; linarith
    have hh40n : hour < 1099511627776 := by
      have h2 : (2:ℕ) ^ 40 = 1099511627776 := by norm_num
      omega
    have hh40q : ((hour:ℤ):ℚ) < 1099511627776 := by exact_mod_cast hh40n
    have hShi : dval S < (2:ℚ) ^ (41:ℤ) := by
      have h1 : dval qP ≤ 1 := by
        have : (1:ℚ) - 1/3600 + (2:ℚ)^(-54:ℤ) ≤ 1 := by norm_num
        linarith
      have h2 : (2:ℚ) ^ (41:ℤ) = 2199023255552 := by norm_num
      rw [hSval, h2]
      linarith
    have hSnumq : (S.1 : ℚ) = dval S * 2 ^ S.2 := by
      simp only [dval]
      field_simp
    have hSnum_pos : 0 < S.1 := by
      have h1 : (0:ℚ) < (S.1:ℚ) := by
        rw [hSnumq]
        exact mul_pos hSpos (by positivity)
      exact_mod_cast h1
    have hP2le : (2:ℚ) ^ S.2 ≤ (2:ℚ) ^ (64:ℕ) :=
      pow_le_pow_right₀ (by norm_num) hSk
    have hSnum_lt : S.1 < 2 ^ 500 := by
      have h1 : (S.1:ℚ) < (2:ℚ) ^ (41:ℤ) * (2:ℚ) ^ (64:ℕ) := by
        rw [hSnumq]
        calc dval S * 2 ^ S.2 ≤ dval S * (2:ℚ) ^ (64:ℕ) := by
              exact mul_le_mul_of_nonneg_left hP2le hSpos.le
          _ < (2:ℚ) ^ (41:ℤ) * (2:ℚ) ^ (64:ℕ) := by
              exact mul_lt_mul_of_pos_right hShi (by positivity)
      have h2 : (2:ℚ) ^ (41:ℤ) * (2:ℚ) ^ (64:ℕ) = ((2 ^ 105 : ℤ) : ℚ) := by norm_num
      rw [h2] at h1
      have h3 : S.1 < 2 ^ 105 := by exact_mod_cast h1
      exact lt_trans h3 (by norm_num)
    have hb2 : (0:ℤ) < 2 ^ S.2 := by positivity
    have hb2lt : (2:ℤ) ^ S.2 < 2 ^ 500 := by
      have h1 : (2:ℤ) ^ S.2 ≤ 2 ^ 64 := pow_le_pow_right₀ (by norm_num) hSk
      exact lt_of_le_of_lt h1 (by norm_num)
    have hcast : ((2 ^ S.2 : ℤ) : ℚ) = (2:ℚ) ^ S.2 := by push_cast; ring
    have hvalS : (S.1 : ℚ) / ((2 ^ S.2 : ℤ) : ℚ) = dval S := by
      rw [hcast]; rfl
    obtain ⟨hoe1, hoe2⟩ := fracExp2_correct S.1 (2 ^ S.2) hSnum_pos hb2 hSnum_lt hb2lt
    rw [hvalS] at hoe1 hoe2
    have heS41 : fracExp2 S.1 (2 ^ S.2) ≤ 40 := by
      have hlt : (2:ℚ) ^ (fracExp2 S.1 (2 ^ S.2)) < (2:ℚ) ^ (41:ℤ) :=
        lt_of_le_of_lt hoe1 hShi
      have := zpow2_lt_of_lt hlt
      omega
    obtain ⟨hfm1, hfm2, hfsh, hferr⟩ :=
      fl53_spec S.1 (2 ^ S.2) hSnum_pos hb2 hSnum_lt hb2lt (by omega)
    rw [hvalS] at hferr
    have hferr2 : |dval (fl53 S.1 (2 ^ S.2)) - dval S| ≤ (2:ℚ) ^ (-13:ℤ) :=
      le_trans hferr (zpow2_le_zpow2 (by omega))
    rw [abs_le] at hferr2
    have hfe : fl53Dyadic S = fl53 S.1 (2 ^ S.2) := by
      rw [fl53Dyadic, fl53Signed_of_nonneg _ _ hSnum_pos.le]
    rw [hfe]
    rcases hFd : fl53 S.1 (2 ^ S.2) with ⟨P, K⟩
    rw [hFd] at hferr2
    have hAval : (2:ℚ)^(-54:ℤ) = 1/18014398509481984 := by norm_num
    have hBval : (2:ℚ)^(-13:ℤ) = 1/8192 := by norm_num
    rw [hAval] at hq_lo hq_hi
    refine truncDyadic_eq P K (hour:ℤ) (Int.natCast_nonneg hour) ?_ ?_
    · have hlow : dval S - (2:ℚ)^(-13:ℤ) ≤ dval (P, K) := by linarith only [hferr2.1]
      rw [hSval, hBval] at hlow
      linarith only [hlow, hq_lo]
    · have hhigh : dval (P, K) ≤ dval S + (2:ℚ)^(-13:ℤ) := by linarith only [hferr2.2]
      rw [hSval, hBval] at hhigh
      linarith only [hhigh, hq_hi]

theorem int_tdiv_cast (m n : ℕ) : ((m : ℤ)).tdiv ((n : ℤ)) = ((m / n : ℕ) : ℤ) := rfl

theorem int_tmod_cast (m n : ℕ) : ((m : ℤ)).tmod ((n : ℤ)) = ((m % n : ℕ) : ℤ) := rfl

theorem durHoursF_whole_seconds (s : ℕ) (hs : s < 9223372037) :
    truncDyadic (durHoursF ((s : ℤ) * 1000000000)) = ((s / 3600 : ℕ) : ℤ) := by
  have hd1 : ((s : ℤ) * 1000000000).tdiv 3600000000000 = ((s / 3600 : ℕ) : ℤ) := by
    have hc : (s : ℤ) * 1000000000 = ((s * 1000000000 : ℕ) : ℤ) := by push_cast; ring
    rw [hc, show (3600000000000 : ℤ) = ((3600000000000 : ℕ) : ℤ) from rfl, int_tdiv_cast]
    congr 1
    omega
  have hd2 : ((s : ℤ) * 1000000000).tmod 3600000000000 =
      ((s % 3600 : ℕ) : ℤ) * 1000000000 := by
    have hc : (s : ℤ) * 1000000000 = ((s * 1000000000 : ℕ) : ℤ) := by push_cast; ring
    rw [hc, show (3600000000000 : ℤ) = ((3600000000000 : ℕ) : ℤ) from rfl, int_tmod_cast]
    have hn : (s * 1000000000) % 3600000000000 = (s % 3600) * 1000000000 := by omega
    rw [hn]
    push_cast
    ring
  unfold durHoursF
  rw [hd1, hd2, show (3600000000000 : ℤ) = ((3600 : ℕ) : ℤ) * 1000000000 from by norm_num]
  exact truncUnit (s / 3600) (s % 3600) 3600 (by norm_num) (le_refl 3600)
    (Nat.mod_lt s (by norm_num)) (by omega)

theorem durMinutesF_whole_seconds (s : ℕ) (hs : s < 9223372037) :
    truncDyadic (durMinutesF ((s : ℤ) * 1000000000)) = ((s / 60 : ℕ) : ℤ) := by
  have hd1 : ((s : ℤ) * 1000000000).tdiv 60000000000 = ((s / 60 : ℕ) : ℤ) := by
    have hc : (s : ℤ) * 1000000000 = ((s * 1000000000 : ℕ) : ℤ) := by push_cast; ring
    rw [hc, show (60000000000 : ℤ) = ((60000000000 : ℕ) : ℤ) from rfl, int_tdiv_cast]
    congr 1
    omega
  have hd2 : ((s : ℤ) * 1000000000).tmod 60000000000 =
      ((s % 60 : ℕ) : ℤ) * 1000000000 := by
    have hc : (s : ℤ) * 1000000000 = ((s * 1000000000 : ℕ) : ℤ) := by push_cast; ring
    rw [hc, show (60000000000 : ℤ) = ((60000000000 : ℕ) : ℤ) from rfl, int_tmod_cast]
    have hn : (s * 1000000000) % 60000000000 = (s % 60) * 1000000000 := by omega
    rw [hn]
    push_cast
    ring
  unfold durMinutesF
  rw [hd1, hd2, show (60000000000 : ℤ) = ((60 : ℕ) : ℤ) * 1000000000 from by norm_num]
  exact truncUnit (s / 60) (s % 60) 60 (by norm_num) (by norm_num)
    (Nat.mod_lt s (by norm_num)) (by omega)

/-- C4: `DiffPorts` treats both entry lists as sets — duplicates collapse
and order is irrelevant: an entry is in the returned `added` list exactly
when it occurs in `new` and not in `old`, and in the returned `removed`
list exactly when it occurs in `old` and not in `new`; an entry present in
both lists therefore appears in neither result. -/
theorem diffPorts_set_spec (old new : List String) (x : String) :
    (x ∈ (DiffPorts old new).1 ↔ x ∈ new ∧ x ∉ old) ∧
    (x ∈ (DiffPorts old new).2 ↔ x ∈ old ∧ x ∉ new) := by
  simp [DiffPorts, List.mem_filter, List.mem_dedup]

/-- C2 (failing input): for `command = "sudo nmap -p-"` and
`target = "10.0.0.1"`, `RunScan` spawns the binary `"nmap"` with argument
vector `["nmap", "nmap", "-p-", "10.0.0.1"]` — the `sudo` token is dropped
from the executed command and the resolved executable is duplicated as the
first argument — which is not the original token sequence
`["sudo", "nmap", "-p-", "10.0.0.1"]` that the claim (and the source's own
comments "still execute the full command" / "keep original command
structure") require. -/
theorem runScanCmd_sudo_bug :
    RunScanCmd "sudo nmap -p-" "10.0.0.1" =
      Except.ok { name := "nmap", argv := ["nmap", "nmap", "-p-", "10.0.0.1"] } ∧
    (["nmap", "nmap", "-p-", "10.0.0.1"] : List String) ≠
      ["sudo", "nmap", "-p-", "10.0.0.1"] := by
  exact ⟨rfl, by decide⟩

/-- C5: saving `B` into a store whose current slot holds `A` first rotates
`A` into the backup slot (before the new current is written), leaving
current = `B`, backup = `A`; a subsequent save of `C` leaves current =
`C`, backup = `B`, and the resulting two-slot store retains nothing but
`B` and `C` — `A` is unrecoverable. -/
theorem saveScan_rotation (st : Store) (A B C : ScanResult)
    (h : st.current = some A) :
    (rotateCurrent st).backup = some A ∧
    (rotateCurrent st).current = none ∧
    (SaveScan B st).current = some B ∧
    (SaveScan B st).backup = some A ∧
    (SaveScan C (SaveScan B st)).current = some C ∧
    (SaveScan C (SaveScan B st)).backup = some B ∧
    (∀ x : ScanResult,
      (SaveScan C (SaveScan B st)).current = some x ∨
      (SaveScan C (SaveScan B st)).backup = some x → x = B ∨ x = C) := by
  refine ⟨?_, ?_, ?_, ?_, ?_, ?_, ?_⟩ <;>
    simp [SaveScan, writeCurrent, rotateCurrent, h]
  rintro x (hx | hx)
  · exact Or.inr hx.symm
  · exact Or.inl hx.symm

/-- C5 witness: concrete three-save run from a store holding `A`. -/
theorem saveScan_rotation_witness :
    (SaveScan ⟨"c", []⟩ (SaveScan ⟨"b", []⟩
      { current := some ⟨"a", []⟩, backup := none })).backup = some ⟨"b", []⟩ :=
  (saveScan_rotation { current := some ⟨"a", []⟩, backup := none }
    ⟨"a", []⟩ ⟨"b", []⟩ ⟨"c", []⟩ rfl).2.2.2.2.2.1

/-- C3 (counterexample): at `d = 4097` hours minus one nanosecond, the
binary64 value of `d.Hours()` rounds up to exactly `4097.0` (the exact
value `4097 - 2.8e-13` lies within half an ulp of `4097` in the binade
`[4096, 8192)`), so the program prints `"170 days, 17 hours"`, while the
claim's remainder formula — `D = 170` whole days and
`H = 4096 - 24 * 170 = 16` whole hours after removing whole days —
requires `"170 days, 16 hours"`.  This refutes the claim as stated, over
the exact binary64 model of `formatElapsedTime`. -/
theorem formatElapsedTime_float_cex :
    formatElapsedTime (4097 * 3600000000000 - 1) = "170 days, 17 hours" ∧
    (4097 * 3600000000000 - 1 : Int).tdiv 86400000000000 = 170 ∧
    (4097 * 3600000000000 - 1 : Int).tdiv 3600000000000 -
      24 * (4097 * 3600000000000 - 1 : Int).tdiv 86400000000000 = 16 ∧
    "170 days, 17 hours" ≠ "170 days, 16 hours" := by
  exact ⟨by decide, by decide, by decide, by decide⟩

/-- C3 (amended): for every nonnegative whole-second duration `d` (in
nanoseconds, within Go's `int64` Duration domain, where the binary64
arithmetic of `int(d.Hours())` / `int(d.Minutes())` provably agrees with
exact truncation), `formatElapsedTime` renders `"D days, H hours"` when
`d` is at least one day, with `D` the whole days and `H` the whole-hours
remainder after removing whole days; `"H hours, M minutes"` when `d` is
at least one hour but less than a day, with `M` the whole-minutes
remainder after removing whole hours; and `"M minutes"` (whole minutes,
seconds dropped) otherwise; in particular 90 minutes renders as
`"1 hours, 30 minutes"`, 25 hours as `"1 days, 1 hours"` and 45 minutes
as `"45 minutes"`. -/
theorem formatElapsedTime_secs_spec (d : Int) (s : ℕ) (hsec : d = (s : ℤ) * 1000000000)
    (hrange : d < 2 ^ 63) :
    (86400000000000 ≤ d →
      formatElapsedTime d =
        toString (d.tdiv 86400000000000) ++ " days, " ++
        toString (d.tdiv 3600000000000 - 24 * d.tdiv 86400000000000) ++ " hours") ∧
    (3600000000000 ≤ d → d < 86400000000000 →
      formatElapsedTime d =
        toString (d.tdiv 3600000000000) ++ " hours, " ++
        toString (d.tdiv 60000000000 - 60 * d.tdiv 3600000000000) ++ " minutes") ∧
    (d < 3600000000000 →
      formatElapsedTime d = toString (d.tdiv 60000000000) ++ " minutes") ∧
    formatElapsedTime (90 * 60000000000) = "1 hours, 30 minutes" ∧
    formatElapsedTime (25 * 3600000000000) = "1 days, 1 hours" ∧
    formatElapsedTime (45 * 60000000000) = "45 minutes" := by
  subst hsec
  have hs : s < 9223372037 := by omega
  have hH := durHoursF_whole_seconds s hs
  have hM := durMinutesF_whole_seconds s hs
  have hcast : (s : ℤ) * 1000000000 = ((s * 1000000000 : ℕ) : ℤ) := by push_cast; ring
  have hDh : ((s:ℤ) * 1000000000).tdiv 3600000000000 = ((s / 3600 : ℕ) : ℤ) := by
    rw [hcast, show (3600000000000 : ℤ) = ((3600000000000 : ℕ) : ℤ) from rfl, int_tdiv_cast]
    congr 1
    omega
  have hDd : ((s:ℤ) * 1000000000).tdiv 86400000000000 = ((s / 86400 : ℕ) : ℤ) := by
    rw [hcast, show (86400000000000 : ℤ) = ((86400000000000 : ℕ) : ℤ) from rfl, int_tdiv_cast]
    congr 1
    omega
  have hDm : ((s:ℤ) * 1000000000).tdiv 60000000000 = ((s / 60 : ℕ) : ℤ) := by
    rw [hcast, show (60000000000 : ℤ) = ((60000000000 : ℕ) : ℤ) from rfl, int_tdiv_cast]
    congr 1
    omega
  refine ⟨?_, ?_, ?_, by decide, by decide, by decide⟩
  · intro h86
    have hsge : 86400 ≤ s := by omega
    simp only [formatElapsedTime]
    rw [hH, hM, hDd, hDh]
    rw [show ((s / 3600 : ℕ) : ℤ).tdiv 24 = ((s / 3600 / 24 : ℕ) : ℤ) from int_tdiv_cast _ 24]
    rw [if_pos (show ((s / 3600 / 24 : ℕ) : ℤ) > 0 from by
      exact_mod_cast Nat.pos_of_ne_zero (by omega))]
    rw [show ((s / 3600 / 24 : ℕ) : ℤ) = ((s / 86400 : ℕ) : ℤ) from
      congrArg (fun n : ℕ => (n : ℤ)) (by omega : s / 3600 / 24 = s / 86400)]
    rw [show ((s / 3600 : ℕ) : ℤ).tmod 24 =
        ((s / 3600 : ℕ) : ℤ) - 24 * ((s / 86400 : ℕ) : ℤ) from by
      rw [show ((s / 3600 : ℕ) : ℤ).tmod 24 = ((s / 3600 % 24 : ℕ) : ℤ) from int_tmod_cast _ 24]
      push_cast
      omega]
  · intro h1 h2
    have hs1 : 3600 ≤ s := by omega
    have hs2 : s < 86400 := by omega
    simp only [formatElapsedTime]
    rw [hH, hM, hDh, hDm]
    rw [show ((s / 3600 : ℕ) : ℤ).tdiv 24 = ((s / 3600 / 24 : ℕ) : ℤ) from int_tdiv_cast _ 24]
    rw [if_neg (show ¬(((s / 3600 / 24 : ℕ) : ℤ) > 0) from by
      have hz : s / 3600 / 24 = 0 := by omega
      rw [hz]
      norm_num)]
    rw [if_pos (show ((s / 3600 : ℕ) : ℤ) > 0 from by
      exact_mod_cast Nat.pos_of_ne_zero (by omega))]
    rw [show ((s / 60 : ℕ) : ℤ).tmod 60 =
        ((s / 60 : ℕ) : ℤ) - 60 * ((s / 3600 : ℕ) : ℤ) from by
      rw [show ((s / 60 : ℕ) : ℤ).tmod 60 = ((s / 60 % 60 : ℕ) : ℤ) from int_tmod_cast _ 60]
      push_cast
      omega]
  · intro h3
    have hs3 : s < 3600 := by omega
    simp only [formatElapsedTime]
    rw [hH, hM, hDm]
    rw [show ((s / 3600 : ℕ) : ℤ).tdiv 24 = ((s / 3600 / 24 : ℕ) : ℤ) from int_tdiv_cast _ 24]
    rw [if_neg (show ¬(((s / 3600 / 24 : ℕ) : ℤ) > 0) from by
      have hz : s / 3600 / 24 = 0 := by omega
      rw [hz]
      norm_num)]
    rw [if_neg (show ¬(((s / 3600 : ℕ) : ℤ) > 0) from by
      have hz : s / 3600 = 0 := by omega
      rw [hz]
      norm_num)]
    rw [show ((s / 60 : ℕ) : ℤ).tmod 60 = ((s / 60 : ℕ) : ℤ) from by
      rw [show ((s / 60 : ℕ) : ℤ).tmod 60 = ((s / 60 % 60 : ℕ) : ℤ) from int_tmod_cast _ 60]
      exact congrArg (fun n : ℕ => (n : ℤ)) (by omega : s / 60 % 60 = s / 60)]

/-- C3 witness: the amended statement applied at 90 minutes. -/
theorem formatElapsedTime_secs_spec_witness :
    formatElapsedTime (90 * 60000000000) = "1 hours, 30 minutes" :=
  (formatElapsedTime_secs_spec (90 * 60000000000) 5400 (by norm_num)
    (by norm_num)).2.2.2.1

/-- C7 (counterexample): the line
`"Nmap scan report for 22/tcp open ssh"` contains the protocol marker
`"/tcp"`, tokenizes into more than three fields, and is processed while
the host context `"10.0.0.1"` is set — yet the parser records no port
entry for it (the results stay empty): host-report detection takes
precedence, so the line re-binds the current host to `"ssh"` instead,
refuting the claim as stated. -/
theorem parseStep_host_line_cex :
    goContains (goTrimSpace "Nmap scan report for 22/tcp open ssh") "/tcp" = true ∧
    3 ≤ (goFields (goTrimSpace "Nmap scan report for 22/tcp open ssh")).length ∧
    ("10.0.0.1" : String) ≠ "" ∧
    parseStep ("10.0.0.1", []) "Nmap scan report for 22/tcp open ssh" = ("ssh", []) := by
  exact ⟨rfl, by decide, by decide, rfl⟩

/-- C7 (amended): for every input line that does not begin (after
trimming) with the host-report marker `"Nmap scan report for "` but does
contain the protocol marker `"/tcp"` while a current host context is set,
the parser records the entry built from the line's first three
whitespace-separated fields (port/protocol, state, service) for the
current host, ignoring any trailing fields; such a line with fewer than
three fields produces no entry and leaves the state unchanged. -/
theorem parseStep_port_line (cur : String) (m : PortsMap) (rawLine : String)
    (hpre : goStartsWith (goTrimSpace rawLine) "Nmap scan report for " = false)
    (hmark : goContains (goTrimSpace rawLine) "/tcp" = true)
    (hcur : cur ≠ "") :
    (∀ port state service rest,
      goFields (goTrimSpace rawLine) = port :: state :: service :: rest →
      parseStep (cur, m) rawLine =
        (cur, addEntry m cur (port ++ " [" ++ state ++ "] (" ++ service ++ ")"))) ∧
    ((goFields (goTrimSpace rawLine)).length < 3 →
      parseStep (cur, m) rawLine = (cur, m)) := by
  have hb : (cur != "") = true := by simp [bne_iff_ne, hcur]
  constructor
  · intro port state service rest hcols
    simp only [parseStep, hpre, hmark, hb, hcols, Bool.false_eq_true, if_false,
      Bool.and_self, if_true]
  · intro hlen
    rcases hg : goFields (goTrimSpace rawLine) with _ | ⟨a, _ | ⟨b, _ | ⟨c, rest⟩⟩⟩
    · simp only [parseStep, hpre, hmark, hb, hg, Bool.false_eq_true, if_false,
        Bool.and_self, if_true]
    · simp only [parseStep, hpre, hmark, hb, hg, Bool.false_eq_true, if_false,
        Bool.and_self, if_true]
    · simp only [parseStep, hpre, hmark, hb, hg, Bool.false_eq_true, if_false,
        Bool.and_self, if_true]
    · rw [hg] at hlen
      simp at hlen
      omega

/-- C7 witness: the amended statement applied to the port line
`"80/tcp open http"` in the context of host `"10.0.0.1"`. -/
theorem parseStep_port_line_witness :
    parseStep ("10.0.0.1", []) "80/tcp open http" =
      ("10.0.0.1", [("10.0.0.1", ["80/tcp [open] (http)"])]) := by
  have h := (parseStep_port_line "10.0.0.1" [] "80/tcp open http"
    (by decide) (by decide) (by decide)).1 "80/tcp" "open" "http" [] (by decide)
  simpa [addEntry] using h

/-- Helper for C8: a run of lines none of which is a host-report line
leaves the parser in the empty-host state with results untouched. -/
theorem foldl_parseStep_no_hosts : ∀ (lines : List String) (m : PortsMap),
    (∀ l ∈ lines, goStartsWith (goTrimSpace l) "Nmap scan report for " = false) →
    lines.foldl parseStep ("", m) = ("", m)
  | [], _, _ => rfl
  | l :: ls, m, h => by
    have h1 := h l (List.mem_cons_self l ls)
    have hstep : parseStep ("", m) l = ("", m) := by
      simp [parseStep, h1]
    rw [List.foldl_cons, hstep]
    exact foldl_parseStep_no_hosts ls m (fun x hx => h x (List.mem_cons_of_mem _ hx))

/-- C8: an input none of whose lines is a host-report line — in
particular any noise of banners, progress lines and blank lines, and any
port lines appearing before a host line is established — parses to the
empty mapping (and `ParseNmapOutput` is total, so no error is possible). -/
theorem parseNmapOutput_no_hosts (output : String)
    (h : ∀ l ∈ goSplit output '\n',
      goStartsWith (goTrimSpace l) "Nmap scan report for " = false) :
    ParseNmapOutput output = [] := by
  unfold ParseNmapOutput
  rw [foldl_parseStep_no_hosts _ _ h]

/-- C8 witness: a noisy scanner transcript with a stray port line but no
host-report line parses to the empty mapping. -/
theorem parseNmapOutput_no_hosts_witness :
    ParseNmapOutput "Starting Nmap 7.95\n\n80/tcp open http\nDone in 3s" = [] :=
  parseNmapOutput_no_hosts "Starting Nmap 7.95\n\n80/tcp open http\nDone in 3s"
    (by decide)

/-- Helper for C10: `addEntry` never creates an empty entry list. -/
theorem addEntry_values_ne_nil : ∀ (m : PortsMap) (ip e : String),
    (∀ p ∈ m, p.2 ≠ ([] : List String)) →
    ∀ p ∈ addEntry m ip e, p.2 ≠ ([] : List String)
  | [], ip, e, _ => by simp [addEntry]
  | (k, v) :: rest, ip, e, h => by
    simp only [addEntry]
    split
    · intro p hp
      rcases List.mem_cons.mp hp with hp | hp
      · subst hp; simp
      · exact h p (List.mem_cons_of_mem _ hp)
    · intro p hp
      rcases List.mem_cons.mp hp with hp | hp
      · subst hp; exact h (k, v) (List.mem_cons_self _ _)
      · exact addEntry_values_ne_nil rest ip e
          (fun q hq => h q (List.mem_cons_of_mem _ hq)) p hp

/-- Helper for C10: one parser step either leaves the results untouched
or extends them through `addEntry`. -/
theorem parseStep_snd_cases (st : String × PortsMap) (l : String) :
    (parseStep st l).2 = st.2 ∨
    ∃ ip e, (parseStep st l).2 = addEntry st.2 ip e := by
  simp only [parseStep]
  split
  · exact Or.inl rfl
  · split
    · split
      · exact Or.inr ⟨_, _, rfl⟩
      · exact Or.inl rfl
    · exact Or.inl rfl

/-- Helper for C10: one parser step preserves non-emptiness of every
host's entry list. -/
theorem parseStep_values_ne_nil (st : String × PortsMap) (l : String)
    (h : ∀ p ∈ st.2, p.2 ≠ ([] : List String)) :
    ∀ p ∈ (parseStep st l).2, p.2 ≠ ([] : List String) := by
  rcases parseStep_snd_cases st l with hc | ⟨ip, e, hc⟩
  · rw [hc]; exact h
  · rw [hc]; exact addEntry_values_ne_nil _ _ _ h

/-- Helper for C10: the fold over all lines preserves the invariant. -/
theorem foldl_parseStep_values_ne_nil : ∀ (lines : List String) (st : String × PortsMap),
    (∀ p ∈ st.2, p.2 ≠ ([] : List String)) →
    ∀ p ∈ (lines.foldl parseStep st).2, p.2 ≠ ([] : List String)
  | [], _, h => h
  | l :: ls, st, h => by
    rw [List.foldl_cons]
    exact foldl_parseStep_values_ne_nil ls (parseStep st l)
      (parseStep_values_ne_nil st l h)

/-- C10: every host key in the mapping returned by `ParseNmapOutput` is
bound to a non-empty entry list — the parser can never produce a host
present with zero ports, since keys are only ever created together with
their first entry. -/
theorem parseNmapOutput_values_ne_nil (output : String) (ip : String) (l : List String)
    (h : (ip, l) ∈ ParseNmapOutput output) : l ≠ [] := by
  have := foldl_parseStep_values_ne_nil (goSplit output '\n') ("", [])
    (by simp) (ip, l) h
  exact this

/-- C10 witness: the invariant applied to a parsed one-host transcript. -/
theorem parseNmapOutput_values_ne_nil_witness :
    (["80/tcp [open] (http)"] : List String) ≠ [] :=
  parseNmapOutput_values_ne_nil "Nmap scan report for 10.0.0.1\n80/tcp open http"
    "10.0.0.1" ["80/tcp [open] (http)"] (by decide)

/-- Shared helper: a successful `CompareScans` run determines every field
of the report. -/
theorem compareScans_ok_inv (parseTime : String → Option Int)
    (old new : ScanResult) (r : CompareReport)
    (hok : CompareScans parseTime old new = Except.ok r) :
    r.hostChanges = (new.Ports.map (fun p =>
        (p.1, DiffPorts ((lookupPorts old.Ports p.1).getD []) p.2))).filter
        (fun c => !(c.2.1.isEmpty && c.2.2.isEmpty)) ∧
    r.missingHosts = old.Ports.filter (fun p => (lookupPorts new.Ports p.1).isNone) ∧
    r.noChanges = (r.hostChanges.isEmpty && r.missingHosts.isEmpty) ∧
    r.totalAdded = (r.hostChanges.map (fun c => c.2.1.length)).sum ∧
    r.totalRemoved = (r.hostChanges.map (fun c => c.2.2.length)).sum +
      (r.missingHosts.map (fun p => p.2.length)).sum := by
  unfold CompareScans at hok
  cases hpo : parseTime old.DateTime with
  | none => rw [hpo] at hok; exact absurd hok (by simp)
  | some t1 =>
    rw [hpo] at hok
    cases hpn : parseTime new.DateTime with
    | none => rw [hpn] at hok; exact absurd hok (by simp)
    | some t2 =>
      rw [hpn] at hok
      simp only [Except.ok.injEq] at hok
      subst hok
      exact ⟨rfl, rfl, rfl, rfl, rfl⟩

/-- Shared helper: the `noChanges` flag computed by the two loops of
`CompareScans` is `false` exactly when some host of the new snapshot has a
non-empty diff or some host of the old snapshot is gone. -/
theorem noChanges_false_iff (old new : ScanResult) :
    (((new.Ports.map (fun p =>
        (p.1, DiffPorts ((lookupPorts old.Ports p.1).getD []) p.2))).filter
        (fun c => !(c.2.1.isEmpty && c.2.2.isEmpty))).isEmpty &&
     (old.Ports.filter (fun p => (lookupPorts new.Ports p.1).isNone)).isEmpty) = false ↔
    scanChanged old new := by
  have hb : ∀ b : Bool, (b = false) ↔ ¬ (b = true) := by decide
  rw [hb]
  have htrue : (((new.Ports.map (fun p =>
        (p.1, DiffPorts ((lookupPorts old.Ports p.1).getD []) p.2))).filter
        (fun c => !(c.2.1.isEmpty && c.2.2.isEmpty))).isEmpty &&
     (old.Ports.filter (fun p => (lookupPorts new.Ports p.1).isNone)).isEmpty) = true ↔
      ¬ scanChanged old new := by
    rw [Bool.and_eq_true, List.isEmpty_iff, List.isEmpty_iff,
      List.filter_eq_nil_iff, List.filter_eq_nil_iff]
    simp only [scanChanged, not_or, not_exists, List.mem_map, Bool.not_eq_true,
      forall_exists_index, and_imp, forall_apply_eq_imp_iff₂]
    constructor
    · rintro ⟨h1, h2⟩
      constructor
      · rintro x ⟨hx, hne⟩
        have hx1 := h1 x hx
        simp only [Bool.not_eq_false', Bool.and_eq_true, List.isEmpty_iff] at hx1
        exact hne (Prod.ext hx1.1 hx1.2)
      · rintro x ⟨hx, hnone⟩
        have hx2 := h2 x hx
        rw [hnone] at hx2
        simp at hx2
    · rintro ⟨h1, h2⟩
      constructor
      · intro a ha
        simp only [Bool.not_eq_false', Bool.and_eq_true, List.isEmpty_iff]
        have hd : DiffPorts ((lookupPorts old.Ports a.1).getD []) a.2 = ([], []) := by
          by_contra hne
          exact h1 a ⟨ha, hne⟩
        exact ⟨congrArg Prod.fst hd, congrArg Prod.snd hd⟩
      · intro a ha
        cases hl : lookupPorts new.Ports a.1 with
        | none => exact absurd ⟨ha, hl⟩ (h2 a)
        | some v => rfl
  rw [htrue, not_not]

/-- C1: given a successful comparison, `CompareAndSave` persists the new
snapshot through `SaveScan` exactly when `noChanges` is false, and
`noChanges` is false exactly when some host shows a non-empty diff or some
host of the old snapshot is absent from the new one; when neither holds
the report carries `noChanges = true` ("No changes detected.") and the
store is left untouched. -/
theorem compareScans_persist_iff (parseTime : String → Option Int)
    (old new : ScanResult) (st : Store) (r : CompareReport)
    (hok : CompareScans parseTime old new = Except.ok r) :
    (CompareAndSave parseTime old new st).2 =
      (if r.noChanges then st else SaveScan new st) ∧
    (r.noChanges = false ↔ scanChanged old new) := by
  obtain ⟨hhc, hmh, hnc, -, -⟩ := compareScans_ok_inv parseTime old new r hok
  refine ⟨by simp [CompareAndSave, hok], ?_⟩
  rw [hnc, hhc, hmh]
  exact noChanges_false_iff old new

/-- C1 witness: a host with one entry vanishes, so the new snapshot is
saved (rotating the store) and the change condition holds. -/
theorem compareScans_persist_iff_witness :
    (CompareAndSave (fun _ => some 0) ⟨"t", [("h", ["a"])]⟩ ⟨"t", []⟩
      { current := none, backup := none }).2 =
      SaveScan ⟨"t", []⟩ { current := none, backup := none } ∧
    scanChanged ⟨"t", [("h", ["a"])]⟩ ⟨"t", []⟩ := by
  have h := compareScans_persist_iff (fun _ => some 0) ⟨"t", [("h", ["a"])]⟩ ⟨"t", []⟩
    { current := none, backup := none }
    { elapsedStr := "0 minutes", hostChanges := [], missingHosts := [("h", ["a"])],
      noChanges := false, totalAdded := 0, totalRemoved := 1 } rfl
  exact ⟨by simpa using h.1, h.2.mp rfl⟩

/-- Helper for C6: a pair present in the map makes `lookupPorts` succeed
on its key. -/
theorem lookupPorts_ne_none_of_mem : ∀ (m : PortsMap) (p : String × List String),
    p ∈ m → lookupPorts m p.1 ≠ none
  | [], p, hp => absurd hp (List.not_mem_nil p)
  | (k, v) :: rest, p, hp => by
    unfold lookupPorts
    by_cases hk : k = p.1
    · simp [hk]
    · rw [if_neg hk]
      rcases List.mem_cons.mp hp with hp | hp
      · subst hp; exact absurd rfl hk
      · exact lookupPorts_ne_none_of_mem rest p hp

/-- C6: in a successful comparison, a host bound to `oldPorts` in the old
snapshot and absent from the new one is recorded among the missing hosts
(contributing all its entries — `oldPorts.length` — to `totalRemoved`),
appears in no per-host change record (so none of its entries counts as
added), and forces `noChanges = false`. -/
theorem compareScans_missing_host (parseTime : String → Option Int)
    (old new : ScanResult) (r : CompareReport) (ip : String) (oldPorts : List String)
    (hok : CompareScans parseTime old new = Except.ok r)
    (hmem : (ip, oldPorts) ∈ old.Ports)
    (habs : lookupPorts new.Ports ip = none) :
    (ip, oldPorts) ∈ r.missingHosts ∧
    (∀ a b : List String, (ip, a, b) ∉ r.hostChanges) ∧
    r.noChanges = false ∧
    oldPorts.length ≤ r.totalRemoved := by
  obtain ⟨hhc, hmh, hnc, -, htr⟩ := compareScans_ok_inv parseTime old new r hok
  have hmm : (ip, oldPorts) ∈ r.missingHosts := by
    rw [hmh]
    refine List.mem_filter.mpr ⟨hmem, ?_⟩
    simp [habs]
  refine ⟨hmm, ?_, ?_, ?_⟩
  · intro a b hab
    rw [hhc] at hab
    have hmapped := (List.mem_filter.mp hab).1
    obtain ⟨p, hp, hfp⟩ := List.mem_map.mp hmapped
    have hp1 : p.1 = ip := by
      have := congrArg Prod.fst hfp
      simpa using this
    exact lookupPorts_ne_none_of_mem new.Ports p hp (by rw [hp1]; exact habs)
  · rw [hnc]
    have hne : r.missingHosts.isEmpty = false := by
      cases hmho : r.missingHosts with
      | nil => rw [hmho] at hmm; exact absurd hmm (List.not_mem_nil _)
      | cons x xs => rfl
    simp [hne]
  · rw [htr]
    have hlen : oldPorts.length ∈ r.missingHosts.map (fun p => p.2.length) :=
      List.mem_map.mpr ⟨(ip, oldPorts), hmm, rfl⟩
    have hsum := List.single_le_sum
      (l := r.missingHosts.map (fun p => p.2.length)) (by simp) _ hlen
    omega

/-- C6 witness: host `"h"` with two entries disappears; it is recorded as
a missing host in the computed report. -/
theorem compareScans_missing_host_witness :
    (("h", ["a", "b"]) : String × List String) ∈
      ({ elapsedStr := "0 minutes", hostChanges := [], missingHosts := [("h", ["a", "b"])],
         noChanges := false, totalAdded := 0, totalRemoved := 2 } : CompareReport).missingHosts :=
  (compareScans_missing_host (fun _ => some 0) ⟨"t", [("h", ["a", "b"])]⟩ ⟨"t", []⟩
    { elapsedStr := "0 minutes", hostChanges := [], missingHosts := [("h", ["a", "b"])],
      noChanges := false, totalAdded := 0, totalRemoved := 2 } "h" ["a", "b"]
    rfl (by decide) rfl).1

/-- C9: if either snapshot timestamp fails to parse, `CompareScans`
reports the corresponding parse error (the old-timestamp error taking
precedence) and aborts: no report is produced, and `CompareAndSave`
leaves the store untouched — nothing is persisted. -/
theorem compareScans_time_error (parseTime : String → Option Int)
    (old new : ScanResult) (st : Store)
    (h : parseTime old.DateTime = none ∨ parseTime new.DateTime = none) :
    (∃ msg, CompareScans parseTime old new = Except.error msg ∧
      (msg = "Error parsing old scan time" ∨ msg = "Error parsing new scan time")) ∧
    (CompareAndSave parseTime old new st).2 = st := by
  cases hpo : parseTime old.DateTime with
  | none =>
    refine ⟨⟨"Error parsing old scan time", ?_, Or.inl rfl⟩, ?_⟩
    · unfold CompareScans; rw [hpo]
    · unfold CompareAndSave CompareScans; rw [hpo]
  | some t1 =>
    have hpn : parseTime new.DateTime = none := by
      rcases h with h | h
      · rw [h] at hpo; exact absurd hpo (by simp)
      · exact h
    refine ⟨⟨"Error parsing new scan time", ?_, Or.inr rfl⟩, ?_⟩
    · unfold CompareScans; rw [hpo, hpn]
    · unfold CompareAndSave CompareScans; rw [hpo, hpn]

/-- C9 witness: with a parse function rejecting every timestamp, the
comparison aborts and the store is unchanged. -/
theorem compareScans_time_error_witness :
    (CompareAndSave (fun _ => none) ⟨"bad", []⟩ ⟨"bad", []⟩
      { current := none, backup := none }).2 = { current := none, backup := none } :=
  (compareScans_time_error (fun _ => none) ⟨"bad", []⟩ ⟨"bad", []⟩
    { current := none, backup := none } (Or.inl rfl)).2

end PortHunter
